/-
Verification of the changelog generator (cc_changelog_gen/app.py) against its
natural-language specification.

The embedding follows src/src/cc_changelog_gen/app.py (the current revision;
src/app.py is a near-duplicate earlier revision of the same functions).
Python regular expressions are embedded by a small abstract-syntax tree `RE`
with an anchored backtracking matcher that returns candidate matches in the
same preference order as Python's `re` engine (greedy repetition, preferred
`?`), plus a pattern-string compiler `reOf` covering exactly the constructs
the program's configured patterns use.  `\w`/`\s` are modelled over ASCII.
Invalid pattern strings are a fatal configuration-load error in the program
(never reaching the pipeline), and compile here to `RE.nomatch`.
-/
import Mathlib

/-- Group assignments produced by a regex match: pairs of group index and
captured text.  Later entries override earlier ones (Python keeps the last
capture of a repeated group). -/
abbrev Asn := List (Nat × String)

/-- Python `str.split(sep)` for a single-character separator, keeping empty
pieces (structural recursion, so that concrete runs reduce in the kernel;
the core `String.splitOn` is well-founded recursion and does not). -/
def splitCharGo (c : Char) : List Char → List Char → List String
  | [], acc => [String.mk acc.reverse]
  | d :: rest, acc =>
    if d == c then String.mk acc.reverse :: splitCharGo c rest []
    else splitCharGo c rest (d :: acc)

/-- See `splitCharGo`. -/
def strSplitOnChar (c : Char) (s : String) : List String := splitCharGo c s.data []

/-- Structural `startsWith`. -/
def strStartsWith (s pre : String) : Bool := pre.data.isPrefixOf s.data

/-- Structural `drop`. -/
def strDrop (s : String) (n : Nat) : String := String.mk (s.data.drop n)

/-- Structural `intercalate`. -/
def strIntercalate (sep : String) : List String → String
  | [] => ""
  | [x] => x
  | x :: y :: rest => x ++ sep ++ strIntercalate sep (y :: rest)

/-- Substring test (needle occurs contiguously in the haystack). -/
def containsSub (needle : List Char) : List Char → Bool
  | [] => needle.isPrefixOf []
  | c :: rest => needle.isPrefixOf (c :: rest) || containsSub needle rest

/-- Numeric value of a digit string. -/
def digitsToNat (cs : List Char) : Nat :=
  cs.foldl (fun acc c => acc * 10 + (c.toNat - 48)) 0

/-- Abstract syntax of the regular-expression subset used by the program's
configured patterns.  `eos` is the `$` anchor; the matcher itself is anchored
at the start, so `^` compiles to `eps`. -/
inductive RE where
  | eps
  | nomatch
  | eos
  | lit (c : Char)
  | cls (p : Char → Bool)
  | seq (a b : RE)
  | star (r : RE)
  | opt (r : RE)
  | group (n : Nat) (r : RE)

/-- Structural size of a regex, used to bound matcher recursion depth. -/
def reSize : RE → Nat
  | .eps => 1
  | .nomatch => 1
  | .eos => 1
  | .lit _ => 1
  | .cls _ => 1
  | .seq a b => reSize a + reSize b + 1
  | .star r => reSize r + 1
  | .opt r => reSize r + 1
  | .group _ r => reSize r + 1

/-- Number of capture groups defined in a pattern (Python's
`len(match.groups())`, which counts the groups of the pattern regardless of
participation). -/
def numGroups : RE → Nat
  | .eps => 0
  | .nomatch => 0
  | .eos => 0
  | .lit _ => 0
  | .cls _ => 0
  | .seq a b => numGroups a + numGroups b
  | .star r => numGroups r
  | .opt r => numGroups r
  | .group _ r => numGroups r + 1

/-- Anchored matcher.  Returns every way the pattern can match a prefix of
the input, as (remaining suffix, group assignments), in the backtracking
engine's preference order: greedy `star` tries longer matches first, `opt`
prefers to take its body.  Star iterations that consume nothing are cut off,
as in Python.  `fuel` bounds recursion depth; every recursive call either
shortens the input or shrinks the regex, so depth is at most
`(length+1)*(size+1)` and `reFuel` below is always sufficient. -/
def reMat : Nat → RE → List Char → List (List Char × Asn)
  | 0, _, _ => []
  | _+1, .eps, s => [(s, [])]
  | _+1, .nomatch, _ => []
  | _+1, .eos, s =>
    match s with
    | [] => [([], [])]
    | _ :: _ => []
  | _+1, .lit c, s =>
    match s with
    | [] => []
    | d :: rest => if d == c then [(rest, [])] else []
  | _+1, .cls p, s =>
    match s with
    | [] => []
    | d :: rest => if p d then [(rest, [])] else []
  | f+1, .seq a b, s =>
    ((reMat f a s).map (fun ra => (reMat f b ra.1).map (fun rb => (rb.1, ra.2 ++ rb.2)))).flatten
  | f+1, .star r, s =>
    (((reMat f r s).filter (fun ra => ra.1.length < s.length)).map
      (fun ra => (reMat f (.star r) ra.1).map (fun rb => (rb.1, ra.2 ++ rb.2)))).flatten
      ++ [(s, [])]
  | f+1, .opt r, s => (reMat f r s) ++ [(s, [])]
  | f+1, .group n r, s =>
    (reMat f r s).map (fun ra =>
      (ra.1, ra.2 ++ [(n, String.mk (s.take (s.length - ra.1.length)))]))

/-- Sufficient matcher fuel for a given pattern and input. -/
def reFuel (p : RE) (s : List Char) : Nat := (s.length + 1) * (reSize p + 1) + 1

/-- The match Python's engine finds (anchored at the start): the first
candidate in preference order.  Result: remaining suffix and assignments. -/
def pyMatchRem (p : RE) (s : String) : Option (List Char × Asn) :=
  (reMat (reFuel p s.data) p s.data).head?

/-- Value of group `n` in a match: the last assignment, as in Python. -/
def asnFind (n : Nat) (a : Asn) : Option String :=
  (a.reverse.find? (fun x => x.1 == n)).map (fun x => x.2)

/-- `match.groups()`: one entry per group defined in the pattern, `none` for
groups that did not participate in the match. -/
def pyGroups (p : RE) (a : Asn) : List (Option String) :=
  (List.range (numGroups p)).map (fun i => asnFind (i + 1) a)

/-- `re.split(rf"^{p}", s)`.  The `^` anchor restricts the single possible
split point to position 0; on a match the result is the empty leading piece,
the captured groups (Python `None` for non-participating groups, modelled as
`none`), and the remainder.  Without a match the input is returned whole. -/
def pySplitAnchored (p : RE) (s : String) : List (Option String) :=
  match pyMatchRem p s with
  | none => [some s]
  | some (rem, a) => some "" :: pyGroups p a ++ [some (String.mk rem)]

/-- `re.sub(rf"^{p}", "", s)`: remove the anchored match, if any. -/
def pySubStart (p : RE) (s : String) : String :=
  match pyMatchRem p s with
  | none => s
  | some (rem, _) => String.mk rem

/-- Scanner for `re.sub(rf"{p}$", "", s)`: find the leftmost position where
`p` followed by end-of-string matches, and keep only the characters before
it.  Returns `none` when no position matches. -/
def pySubEndGo (p : RE) : List Char → Option (List Char)
  | [] =>
    if (reMat (reFuel (RE.seq p RE.eos) []) (RE.seq p RE.eos) []).isEmpty then none
    else some []
  | c :: rest =>
    if (reMat (reFuel (RE.seq p RE.eos) (c :: rest)) (RE.seq p RE.eos) (c :: rest)).isEmpty then
      (pySubEndGo p rest).map (fun kept => c :: kept)
    else some []

/-- `re.sub(rf"{p}$", "", s)`. -/
def pySubEnd (p : RE) (s : String) : String :=
  match pySubEndGo p s.data with
  | none => s
  | some kept => String.mk kept

/-- Global substitution scanner for `re.sub(p, repl, s)` with a plain
replacement string (backreferences in the replacement are not modelled; the
program's optional pre/post-processing is the only caller).  After an empty
match the scanner copies one character and continues, as Python does. -/
def pySubAllGo (p : RE) (repl : List Char) : Nat → List Char → List Char
  | 0, cs => cs
  | f+1, cs =>
    match pyMatchRem p (String.mk cs) with
    | some (rem, _) =>
      if rem.length < cs.length then repl ++ pySubAllGo p repl f rem
      else
        match cs with
        | [] => repl
        | c :: rest => repl ++ c :: pySubAllGo p repl f rest
    | none =>
      match cs with
      | [] => []
      | c :: rest => c :: pySubAllGo p repl f rest

/-- `re.sub(p, repl, s)` with a plain replacement string. -/
def pySubAll (p : RE) (repl : String) (s : String) : String :=
  String.mk (pySubAllGo p repl.data (s.length + 1) s.data)

/-- ASCII `\w`. -/
def isWordChar (c : Char) : Bool := c.isAlphanum || c == '_'

/-- ASCII `\s`. -/
def isSpaceChar (c : Char) : Bool :=
  c == ' ' || c == '\t' || c == '\n' || c == '\r' || c == '\x0b' || c == '\x0c'

/-- Characters with special meaning that the compiler does not support
unescaped (character classes, alternation, counted repetition). -/
def isUnsupportedMeta (c : Char) : Bool :=
  c == '[' || c == ']' || c == '|' || c == '\x7b' || c == '\x7d'

/-- Repetition operators written after an atom. -/
def applyRepeatOp (a : RE) (rest : List Char) : RE × List Char :=
  match rest with
  | '+' :: r => (RE.seq a (RE.star a), r)
  | '*' :: r => (RE.star a, r)
  | '?' :: r => (RE.opt a, r)
  | _ => (a, rest)

/-- Recursive-descent pattern compiler: a sequence of atoms with postfix
operators (each written after its atom), ending at `)` or at the end of
the pattern.  Atoms are parsed
inline; the group counter follows Python's numbering by order of opening
parenthesis, from 1.  Structural recursion on fuel, so that compiled
patterns reduce inside the kernel. -/
def parseSeq : Nat → List Char → Nat → Option (RE × List Char × Nat)
  | 0, _, _ => none
  | f+1, cs, n =>
    match cs with
    | [] => some (RE.eps, [], n)
    | ')' :: _ => some (RE.eps, cs, n)
    | _ =>
      let atomRes : Option (RE × List Char × Nat) :=
        match cs with
        | '(' :: rest =>
          match parseSeq f rest (n + 1) with
          | some (r, ')' :: rest2, n2) => some (RE.group (n + 1) r, rest2, n2)
          | _ => none
        | '\\' :: c :: rest =>
          if c == 'w' then some (RE.cls isWordChar, rest, n)
          else if c == 's' then some (RE.cls isSpaceChar, rest, n)
          else if c == 'd' then some (RE.cls Char.isDigit, rest, n)
          else if c.isAlphanum then none
          else some (RE.lit c, rest, n)
        | '^' :: rest => some (RE.eps, rest, n)
        | '$' :: rest => some (RE.eos, rest, n)
        | '.' :: rest => some (RE.cls (fun c => c != '\n'), rest, n)
        | c :: rest =>
          if isUnsupportedMeta c || c == '+' || c == '*' || c == '?' || c == '\\' then none
          else some (RE.lit c, rest, n)
        | [] => none
      match atomRes with
      | none => none
      | some (a, rest, n2) =>
        let (a2, rest2) := applyRepeatOp a rest
        match parseSeq f rest2 n2 with
        | none => none
        | some (b, rest3, n3) => some (RE.seq a2 b, rest3, n3)

/-- Compile a configured pattern string.  Patterns the subset does not cover
would be a fatal error at configuration load time in the program; they
compile to the never-matching regex here and are exercised by no claim. -/
def reOf (s : String) : RE :=
  match parseSeq (2 * s.length + 4) s.data 0 with
  | some (r, [], _) => r
  | _ => RE.nomatch

/-- Python `str.capitalize()` over ASCII: first character uppercased, every
following character lowercased. -/
def pyCapitalize (s : String) : String :=
  match s.data with
  | [] => ""
  | c :: cs => String.mk (c.toUpper :: cs.map Char.toLower)

/-- Classification outcome of the type-capture stage. -/
inductive TypeMatch where
  | SUPPORTED_TYPE
  | OTHERS
deriving DecidableEq, Repr

/-- Output record of `process_type_capture`. -/
structure TypeCaptureOutput where
  title : String
  type_capture : String
  type_match : TypeMatch
  is_breaking_change : Bool
deriving DecidableEq, Repr

/-- Optional search/replace pair (`Processing` in the source). -/
structure Processing where
  search : String
  replace : String
deriving DecidableEq, Repr

/-- The configuration record (`Conf` in the source), with the source's
default values.  Pattern fields hold the raw configured pattern strings;
dictionaries are association lists in insertion order. -/
structure Conf where
  pre_captures : List String := []
  pre_captures_after_trim : String := "\\s+"
  type_captures : List String := []
  type_captures_after_trim : String := "\\s+"
  type_captures_allow_breaking_change_group : Bool := true
  breaking_change_line_captures : List String := []
  breaking_change_line_captures_after_trim : String := "\\s+"
  title_left_trim : String := "\\s+"
  title_right_trim : String := "\\s+"
  supported_types : List (String × String) := []
  headings : List (String × String) := []
  others_heading : String := "Others"
  breaking_changes_heading : String := "BREAKING CHANGES"
  capitalize_title_first_char : Bool := true
  preprocessing : Option Processing := none
  postprocessing : Option Processing := none

/-- Aggregator state (`MarkdownContent`), as a pure value: mapping from
heading to collected titles (insertion order), the others bucket, and the
breaking-changes bucket.  The sharing of the mutable default-argument
objects between default-constructed instances is modelled separately below
(see `PyHeap`). -/
structure MarkdownContent where
  values : List (String × List String)
  others : List String
  breaking_changes : List String
deriving DecidableEq, Repr

/-- First-match lookup in an insertion-ordered dictionary. -/
def alistLookup (l : List (String × String)) (k : String) : Option String :=
  (l.find? (fun kv => kv.1 == k)).map (fun kv => kv.2)

/-- Lookup in the aggregator's values dictionary. -/
def alistLookupL (l : List (String × List String)) (k : String) : Option (List String) :=
  (l.find? (fun kv => kv.1 == k)).map (fun kv => kv.2)

/-- `mdc.get_values(heading).append(title)`: append to the bucket, creating
it at the end of the dictionary on first use. -/
def mdcGetAppend (mdc : MarkdownContent) (heading title : String) : MarkdownContent :=
  if (mdc.values.find? (fun kv => kv.1 == heading)).isSome then
    { mdc with values :=
        mdc.values.map (fun kv => if kv.1 == heading then (kv.1, kv.2 ++ [title]) else kv) }
  else
    { mdc with values := mdc.values ++ [(heading, [title])] }

/-- `enhance_title`. -/
def enhance_title (title : String) (capitalize_title_first_char : Bool) : String :=
  if capitalize_title_first_char then pyCapitalize title else title

/-- `process_pre_capture`: first pattern whose anchored match succeeds is
applied; element 1 of the regex split becomes the new title (the remainder
when the pattern has no groups, the first captured group otherwise), then
the start-trim is removed.  `none` models the undefined behaviour when that
split element is Python `None` (a defined but non-participating group). -/
def process_pre_capture : String → List String → String → Option String
  | title, [], _ => some title
  | title, pc :: rest, pre_captures_after_trim =>
    match pyMatchRem (reOf pc) title with
    | none => process_pre_capture title rest pre_captures_after_trim
    | some _ =>
      match (pySplitAnchored (reOf pc) title).get? 1 with
      | some (some t1) => some (pySubStart (reOf pre_captures_after_trim) t1)
      | _ => none

/-- Loop of `process_type_capture` over the type-capture patterns.  Inner
`none`: no pattern matched.  Outer `none` models the undefined behaviour
when `match.group(1)` is unavailable (no group in the pattern) or Python
`None`. -/
def typeCaptureLoop : List String → String → String → Bool → Option (Option (String × String × Bool))
  | [], _, _, _ => some none
  | tc :: rest, title, type_captures_after_trim, allow =>
    match pyMatchRem (reOf tc) title with
    | none => typeCaptureLoop rest title type_captures_after_trim allow
    | some (rem, a) =>
      match asnFind 1 a with
      | none => none
      | some tcap =>
        let isBC := allow && decide (numGroups (reOf tc) ≥ 2)
        let t2 := pySubStart (reOf type_captures_after_trim) (String.mk rem)
        some (some (tcap, t2, isBC))

/-- `process_type_capture`: first matching type-capture pattern yields the
type token (group 1) and the inline breaking-change flag (`allow` AND the
pattern defines at least two groups); the title is the split remainder,
trimmed; afterwards the title is left/right trimmed and optionally
capitalized whether or not any pattern matched. -/
def process_type_capture (title : String) (type_captures : List String)
    (type_captures_after_trim : String) (type_captures_allow_breaking_change_group : Bool)
    (title_left_trim title_right_trim : String)
    (supported_types : List (String × String))
    (capitalize_title_first_char : Bool) : Option TypeCaptureOutput :=
  match typeCaptureLoop type_captures title type_captures_after_trim
      type_captures_allow_breaking_change_group with
  | none => none
  | some res =>
    let tcap := match res with
      | none => ""
      | some (tc, _, _) => tc
    let title1 := match res with
      | none => title
      | some (_, t, _) => t
    let isBC := match res with
      | none => false
      | some (_, _, b) => b
    let tmatch := match res with
      | none => TypeMatch.OTHERS
      | some (tc, _, _) =>
        if (alistLookup supported_types tc).isSome then TypeMatch.SUPPORTED_TYPE
        else TypeMatch.OTHERS
    let t2 := pySubStart (reOf title_left_trim) title1
    let t3 := pySubEnd (reOf title_right_trim) t2
    let t4 := enhance_title t3 capitalize_title_first_char
    some (TypeCaptureOutput.mk t4 tcap tmatch isBC)

/-- Inner loop of `process_breaking_change`: scan the message lines for the
first one the pattern matches; `some none` when no line matches.  Outer
`none` models the undefined split-element-`None` case, as above. -/
def bcLineLoop (bc : String) (breaking_change_line_captures_after_trim : String)
    (capitalize_title_first_char : Bool) : List String → Option (Option String)
  | [] => some none
  | msg :: rest =>
    match pyMatchRem (reOf bc) msg with
    | none => bcLineLoop bc breaking_change_line_captures_after_trim
        capitalize_title_first_char rest
    | some _ =>
      match (pySplitAnchored (reOf bc) msg).get? 1 with
      | some (some m1) =>
        some (some (enhance_title
          (pySubStart (reOf breaking_change_line_captures_after_trim) m1)
          capitalize_title_first_char))
      | _ => none

/-- `process_breaking_change`: iterate patterns in configured order, lines in
order within each pattern, returning at the first match; `some none` is the
Python `None` returned when nothing matches. -/
def process_breaking_change (messages : List String) :
    List String → String → Bool → Option (Option String)
  | [], _, _ => some none
  | bc :: rest, breaking_change_line_captures_after_trim, capitalize_title_first_char =>
    match bcLineLoop bc breaking_change_line_captures_after_trim
        capitalize_title_first_char messages with
    | some none => process_breaking_change messages rest
        breaking_change_line_captures_after_trim capitalize_title_first_char
    | r => r

/-- `"\n".join(map(lambda p: f"- " + p, points))`. -/
def appendPoints (points : List String) : String :=
  strIntercalate "\n" (points.map (fun p => "- " ++ p))

/-- One rendered section. -/
def appendSection (heading : String) (points : List String) : String :=
  "## " ++ heading ++ "\n\n" ++ appendPoints points ++ "\n"

/-- `process_markdown`: title, then one section per configured heading whose
key is present in the values dictionary, then the others and breaking-change
sections when their buckets are non-empty. -/
def process_markdown (mdc : MarkdownContent) (title : String)
    (headings : List (String × String))
    (others_heading breaking_changes_heading : String) : String :=
  let content := "# " ++ title ++ "\n\n"
  let content := headings.foldl (fun acc hk =>
    match alistLookupL mdc.values hk.1 with
    | some pts => acc ++ appendSection hk.2 pts ++ "\n"
    | none => acc) content
  let content :=
    if mdc.others.length > 0 then content ++ appendSection others_heading mdc.others ++ "\n"
    else content
  if mdc.breaking_changes.length > 0 then
    content ++ appendSection breaking_changes_heading mdc.breaking_changes
  else content

/-- The `match type_capture_output.type_match` statement of `main`'s loop:
route the title to the heading bucket named by the supported-types value, or
to the others bucket.  `none` is the (unreachable) `KeyError` on the
supported-types lookup. -/
def mainBucketStep (supported_types : List (String × String)) (mdc : MarkdownContent)
    (tco : TypeCaptureOutput) (title2 : String) : Option MarkdownContent :=
  match tco.type_match with
  | TypeMatch.SUPPORTED_TYPE =>
    match alistLookup supported_types tco.type_capture with
    | some heading => some (mdcGetAppend mdc heading title2)
    | none => none
  | TypeMatch.OTHERS => some { mdc with others := mdc.others ++ [title2] }

/-- `breaking_change_title_explicit if breaking_change_title_explicit else
breaking_change_title`: the explicit detector's result wins whenever it is
truthy (a non-empty string). -/
def mainBreakingTitle (bcte : Option String) (bct0 : Option String) : Option String :=
  match bcte with
  | some e => if e != "" then some e else bct0
  | none => bct0

/-- `if breaking_change_title: mdc.breaking_changes.append(...)`: append when
the selected title is truthy. -/
def mainAppendBreaking (mdc1 : MarkdownContent) (bct : Option String) : MarkdownContent :=
  match bct with
  | some b =>
    if b != "" then { mdc1 with breaking_changes := mdc1.breaking_changes ++ [b] }
    else mdc1
  | none => mdc1

/-- The per-commit body of `main`'s loop (lines 357-415 of the source).
`none` propagates the undefined cases of the stage functions and the
(unreachable) `KeyError` on the supported-types lookup.  Note the source
passes `c.breaking_change_line_captures_after_trim` — a string — as the
`type_captures_allow_breaking_change_group` argument; the truthiness of that
string (non-emptiness) is what reaches the boolean test inside
`process_type_capture`. -/
def mainProcessCommit (c : Conf) (mdc : MarkdownContent) (message : String) :
    Option MarkdownContent :=
  let messages := strSplitOnChar '\n' message
  let title0 := messages.headD ""
  let title0 := match c.preprocessing with
    | some pr => pySubAll (reOf pr.search) pr.replace title0
    | none => title0
  match process_pre_capture title0 c.pre_captures c.pre_captures_after_trim with
  | none => none
  | some title1 =>
    match process_type_capture title1 c.type_captures c.type_captures_after_trim
        (c.breaking_change_line_captures_after_trim != "")
        c.title_left_trim c.title_right_trim
        c.supported_types c.capitalize_title_first_char with
    | none => none
    | some tco =>
      let title2 := match c.postprocessing with
        | some pr => pySubAll (reOf pr.search) pr.replace tco.title
        | none => tco.title
      match mainBucketStep c.supported_types mdc tco title2 with
      | none => none
      | some mdc1 =>
        let bct0 : Option String := if tco.is_breaking_change then some title2 else none
        match process_breaking_change messages c.breaking_change_line_captures
            c.breaking_change_line_captures_after_trim c.capitalize_title_first_char with
        | none => none
        | some bcte => some (mainAppendBreaking mdc1 (mainBreakingTitle bcte bct0))

/-- `main` from commit list to rendered document: fold the per-commit step
from the empty aggregator (a fresh process's default-constructed
`MarkdownContent`), then render. -/
def mainRun (c : Conf) (commit_messages : List String) (title : String) : Option String :=
  match commit_messages.foldl
      (fun acc msg => match acc with
        | none => none
        | some mdc => mainProcessCommit c mdc msg)
      (some (MarkdownContent.mk [] [] [])) with
  | none => none
  | some mdc =>
    some (process_markdown mdc title c.headings c.others_heading c.breaking_changes_heading)

/-- A parsed semantic version, python-semver style: numeric core, optional
dot-separated prerelease identifiers (`[]` = no prerelease), and build
identifiers (ignored by comparison). -/
structure SemVer where
  major : Nat
  minor : Nat
  patch : Nat
  prerelease : List String
  build : List String
deriving DecidableEq, Repr

/-- Split a string at the first occurrence of a separator character. -/
def splitFirst (s : String) (sep : Char) : String × Option String :=
  match strSplitOnChar sep s with
  | [] => (s, none)
  | [x] => (x, none)
  | x :: rest => (x, some (strIntercalate (String.mk [sep]) rest))

/-- A numeric semver component: digits only, no leading zero. -/
def parseNumStrict (s : String) : Option Nat :=
  match s.data with
  | [] => none
  | c :: cs =>
    if (c :: cs).all Char.isDigit then
      if c == '0' && !cs.isEmpty then none
      else some (digitsToNat (c :: cs))
    else none

/-- A valid prerelease identifier: numeric without leading zero, or
alphanumeric/hyphen containing at least one non-digit. -/
def isPrereleaseId (s : String) : Bool :=
  match s.data with
  | [] => false
  | c :: cs =>
    if (c :: cs).all Char.isDigit then !(c == '0' && !cs.isEmpty)
    else (c :: cs).all (fun d => d.isAlphanum || d == '-')

/-- A valid build identifier: non-empty alphanumeric/hyphen. -/
def isBuildId (s : String) : Bool :=
  !s.data.isEmpty && s.data.all (fun c => c.isAlphanum || c == '-')

/-- `semver.Version.parse` (equivalently `is_valid` when `isSome`): the
semver.org grammar with all three numeric components required. -/
def semverParse (s : String) : Option SemVer :=
  let (core0, buildStr) := splitFirst s '+'
  let (core, preStr) := splitFirst core0 '-'
  match strSplitOnChar '.' core with
  | [ma, mi, pa] =>
    match parseNumStrict ma, parseNumStrict mi, parseNumStrict pa with
    | some major, some minor, some patch =>
      let preIds : Option (List String) := match preStr with
        | none => some []
        | some p =>
          let ids := strSplitOnChar '.' p
          if ids.all isPrereleaseId then some ids else none
      let buildIds : Option (List String) := match buildStr with
        | none => some []
        | some b =>
          let ids := strSplitOnChar '.' b
          if ids.all isBuildId then some ids else none
      match preIds, buildIds with
      | some pre, some bu => some (SemVer.mk major minor patch pre bu)
      | _, _ => none
    | _, _, _ => none
  | _ => none

/-- Integer comparison. -/
def natCmp (a b : Nat) : Ordering :=
  if a < b then Ordering.lt else if a = b then Ordering.eq else Ordering.gt

/-- Character comparison by code point. -/
def charCmp (a b : Char) : Ordering := natCmp a.toNat b.toNat

/-- Elementwise list comparison; a strict prefix is smaller. -/
def listCmp (f : α → α → Ordering) : List α → List α → Ordering
  | [], [] => Ordering.eq
  | [], _ :: _ => Ordering.lt
  | _ :: _, [] => Ordering.gt
  | a :: as1, b :: bs1 =>
    match f a b with
    | Ordering.eq => listCmp f as1 bs1
    | o => o

/-- Python string comparison (code-point lexicographic). -/
def strCmp (a b : String) : Ordering := listCmp charCmp a.data b.data

/-- The integer value of an all-digit prerelease identifier, `none` for
alphanumeric identifiers (python-semver converts digit-only parts with
`int`). -/
def identKey (s : String) : Option Nat :=
  if !s.data.isEmpty && s.data.all Char.isDigit then some (digitsToNat s.data) else none

/-- Prerelease identifier comparison, python-semver style: numeric
identifiers compare as integers and sort below alphanumeric ones;
alphanumeric ones compare as strings. -/
def identCmp (a b : String) : Ordering :=
  match identKey a, identKey b with
  | some x, some y => natCmp x y
  | some _, none => Ordering.lt
  | none, some _ => Ordering.gt
  | none, none => strCmp a b

/-- Prerelease list comparison: no prerelease outranks any prerelease. -/
def preCmp : List String → List String → Ordering
  | [], [] => Ordering.eq
  | [], _ :: _ => Ordering.gt
  | _ :: _, [] => Ordering.lt
  | a :: as1, b :: bs1 => listCmp identCmp (a :: as1) (b :: bs1)

/-- Lexicographic composition of two comparators on the same type. -/
def lexCmp (f g : α → α → Ordering) (a b : α) : Ordering :=
  match f a b with
  | Ordering.eq => g a b
  | o => o

/-- `semver.Version` comparison: numeric core lexicographically, then
prerelease; build metadata is ignored. -/
def svCmp : SemVer → SemVer → Ordering :=
  lexCmp (fun a b => natCmp a.major b.major)
    (lexCmp (fun a b => natCmp a.minor b.minor)
      (lexCmp (fun a b => natCmp a.patch b.patch)
        (fun a b => preCmp a.prerelease b.prerelease)))

/-- One step of Python's `max`: replace the running maximum only on strictly
greater, keeping the first of equal maxima. -/
def svStep (best x : String × SemVer) : String × SemVer :=
  if svCmp x.2 best.2 == Ordering.gt then x else best

/-- `max(versions, key=versions.get)` over the insertion-ordered dictionary,
kept as the full pair. -/
def latestSemverPair : List (String × SemVer) → Option (String × SemVer)
  | [] => none
  | v :: vs => some (vs.foldl svStep v)

/-- `latest_semver`. -/
def latest_semver (versions : List (String × SemVer)) : Option String :=
  (latestSemverPair versions).map (fun x => x.1)

/-- `closest_previous_semver`: the latest among versions strictly below the
target. -/
def closest_previous_semver (target : SemVer) (versions : List (String × SemVer)) :
    Option String :=
  latest_semver (versions.filter (fun x => svCmp x.2 target == Ordering.lt))

/-- `_clean_tag`: `re.sub(r"^[vV]", "", s)`. -/
def cleanTag (s : String) : String :=
  if strStartsWith s "v" || strStartsWith s "V" then strDrop s 1 else s

/-- The `tag_versions` dictionary: tags whose cleaned name parses as a valid
semver, in tag order, mapped to their parsed versions. -/
def tagVersions (repo_tags : List String) : List (String × SemVer) :=
  repo_tags.filterMap (fun t => (semverParse (cleanTag t)).map (fun v => (t, v)))

/-- `process_commits_str`.  The warnings printed to stderr are returned as a
list (quotes around the interpolated range elided).  The function always
returns a range expression: warnings are advisory and nothing aborts. -/
def process_commits_str (commits_str release_title : String) (repo_tags : List String) :
    String × List String :=
  if strStartsWith commits_str "~.." then
    let title_tag_raw := cleanTag release_title
    let tag_versions := tagVersions repo_tags
    match semverParse title_tag_raw with
    | some title_tag =>
      match closest_previous_semver title_tag tag_versions with
      | some closest_prev_tag =>
        let cs := closest_prev_tag ++ strDrop commits_str 1
        (cs, ["Using commit range " ++ cs])
      | none =>
        let cs := strDrop commits_str 3
        (cs, ["No valid semver tags found, starting from beginning to commit " ++ cs])
    | none =>
      match latest_semver tag_versions with
      | some latest_tag =>
        let cs := latest_tag ++ strDrop commits_str 1
        (cs, ["Release title is not a valid semver, using latest semver tag " ++ cs])
      | none =>
        let cs := strDrop commits_str 3
        (cs, ["No valid semver release title or tags found, starting from beginning to commit " ++ cs])
  else (commits_str, [])

/-- Object store for the aliasing semantics of `MarkdownContent.__init__`'s
mutable default arguments.  Python evaluates the default expressions
`dict()`, `list()`, `list()` once, when the `def` statement runs; every call
that omits the corresponding argument binds the same object.  The store
holds dictionary objects and list objects addressed by index. -/
structure PyHeap where
  dicts : List (List (String × List String))
  lists : List (List String)
deriving DecidableEq, Repr

/-- The heap right after the module body runs: the three default-argument
objects exist (dictionary 0 and lists 0 and 1) and are empty. -/
def pyHeapInit : PyHeap := PyHeap.mk [[]] [[], []]

/-- A `MarkdownContent` instance under the heap model: its three attributes
are references to store objects. -/
structure MarkdownContentRef where
  values : Nat
  others : Nat
  breaking_changes : Nat
deriving DecidableEq, Repr

/-- `MarkdownContent()` with all arguments omitted: binds the three
module-level default objects.  Allocates nothing. -/
def markdownContentInitDefault : MarkdownContentRef := MarkdownContentRef.mk 0 0 1

/-- `MarkdownContent(dict(), list(), list())` with freshly evaluated
arguments: allocates three new objects. -/
def markdownContentInitFresh (h : PyHeap) : MarkdownContentRef × PyHeap :=
  (MarkdownContentRef.mk h.dicts.length h.lists.length (h.lists.length + 1),
   PyHeap.mk (h.dicts ++ [[]]) (h.lists ++ [[], []]))

/-- `<list object>.append(s)` through a reference. -/
def heapAppendList (h : PyHeap) (r : Nat) (s : String) : PyHeap :=
  PyHeap.mk h.dicts (h.lists.set r (((h.lists.get? r).getD []) ++ [s]))

/-- Read a list object through a reference. -/
def heapReadList (h : PyHeap) (r : Nat) : List String :=
  (h.lists.get? r).getD []

/-- Lawfulness of a three-way comparator: enough structure to justify that a
running-maximum fold computes a maximum (Python's `max` over `Version`
values). -/
structure LawfulCmp (f : α → α → Ordering) : Prop where
  lt_trans : ∀ a b c, f a b = Ordering.lt → f b c = Ordering.lt → f a c = Ordering.lt
  eq_congr : ∀ a b c, f a b = Ordering.eq → f a c = f b c
  gt_iff : ∀ a b, f a b = Ordering.gt ↔ f b a = Ordering.lt

theorem LawfulCmp.not_gt_refl {f : α → α → Ordering} (hf : LawfulCmp f) (a : α) :
    f a a ≠ Ordering.gt := by
  intro h
  have := (hf.gt_iff a a).mp h
  rw [this] at h
  exact Ordering.noConfusion h

theorem LawfulCmp.eq_symm {f : α → α → Ordering} (hf : LawfulCmp f) {a b : α}
    (h : f a b = Ordering.eq) : f b a = Ordering.eq := by
  cases h2 : f b a with
  | lt =>
    have := (hf.gt_iff a b).mpr h2
    rw [this] at h
    exact Ordering.noConfusion h
  | eq => rfl
  | gt =>
    have := (hf.gt_iff b a).mp h2
    rw [this] at h
    exact Ordering.noConfusion h

theorem LawfulCmp.eq_congr_right {f : α → α → Ordering} (hf : LawfulCmp f) {b c : α}
    (h : f b c = Ordering.eq) (a : α) : f a b = f a c := by
  have hcb : f c b = Ordering.eq := hf.eq_symm h
  have hca : f c a = f b a := hf.eq_congr c b a hcb
  cases hab : f a b with
  | lt =>
    have hba : f b a = Ordering.gt := (hf.gt_iff b a).mpr hab
    have : f c a = Ordering.gt := by rw [hca]; exact hba
    exact ((hf.gt_iff c a).mp this).symm
  | eq =>
    have hba : f b a = Ordering.eq := hf.eq_symm hab
    have hca2 : f c a = Ordering.eq := by rw [hca]; exact hba
    exact (hf.eq_symm hca2).symm
  | gt =>
    have hba : f b a = Ordering.lt := (hf.gt_iff a b).mp hab
    have : f c a = Ordering.lt := by rw [hca]; exact hba
    exact ((hf.gt_iff a c).mpr this).symm

theorem LawfulCmp.le_trans {f : α → α → Ordering} (hf : LawfulCmp f) {a b c : α}
    (h1 : f a b ≠ Ordering.gt) (h2 : f b c ≠ Ordering.gt) : f a c ≠ Ordering.gt := by
  cases hab : f a b with
  | gt => exact absurd hab h1
  | eq => rw [hf.eq_congr a b c hab]; exact h2
  | lt =>
    cases hbc : f b c with
    | gt => exact absurd hbc h2
    | lt => rw [hf.lt_trans a b c hab hbc]; intro h; exact Ordering.noConfusion h
    | eq => rw [← hf.eq_congr_right hbc a, hab]; intro h; exact Ordering.noConfusion h

theorem LawfulCmp.comap {f : α → α → Ordering} (hf : LawfulCmp f) (k : β → α) :
    LawfulCmp (fun a b => f (k a) (k b)) where
  lt_trans a b c h1 h2 := hf.lt_trans (k a) (k b) (k c) h1 h2
  eq_congr a b c h := hf.eq_congr (k a) (k b) (k c) h
  gt_iff a b := hf.gt_iff (k a) (k b)

theorem natCmp_lt_iff (a b : Nat) : natCmp a b = Ordering.lt ↔ a < b := by
  unfold natCmp
  split
  case isTrue h => simp [h]
  case isFalse h =>
    split <;> simp <;> omega

theorem natCmp_eq_iff (a b : Nat) : natCmp a b = Ordering.eq ↔ a = b := by
  unfold natCmp
  split
  case isTrue h => simp; omega
  case isFalse h =>
    split
    case isTrue h2 => simp [h2]
    case isFalse h2 => simp; omega

theorem natCmp_gt_iff (a b : Nat) : natCmp a b = Ordering.gt ↔ b < a := by
  unfold natCmp
  split
  case isTrue h => simp; omega
  case isFalse h =>
    split <;> simp <;> omega

theorem lawful_natCmp : LawfulCmp natCmp where
  lt_trans a b c h1 h2 := by
    rw [natCmp_lt_iff] at h1 h2 ⊢; omega
  eq_congr a b c h := by
    rw [natCmp_eq_iff] at h; rw [h]
  gt_iff a b := by rw [natCmp_gt_iff, natCmp_lt_iff]

theorem lawful_charCmp : LawfulCmp charCmp := lawful_natCmp.comap Char.toNat

theorem lawful_listCmp {f : α → α → Ordering} (hf : LawfulCmp f) : LawfulCmp (listCmp f) where
  lt_trans as bs cs := by
    induction as generalizing bs cs with
    | nil =>
      intro h1 h2
      cases bs with
      | nil => exact Ordering.noConfusion h1
      | cons b bs1 =>
        cases cs with
        | nil => exact Ordering.noConfusion h2
        | cons c cs1 => rfl
    | cons a as1 ih =>
      intro h1 h2
      cases bs with
      | nil => exact Ordering.noConfusion h1
      | cons b bs1 =>
        cases cs with
        | nil => exact Ordering.noConfusion h2
        | cons c cs1 =>
          simp only [listCmp] at h1 h2 ⊢
          cases hab : f a b with
          | gt => rw [hab] at h1; exact Ordering.noConfusion h1
          | lt =>
            cases hbc : f b c with
            | gt => rw [hbc] at h2; exact Ordering.noConfusion h2
            | lt => rw [hf.lt_trans a b c hab hbc]
            | eq => rw [← hf.eq_congr_right hbc a, hab]
          | eq =>
            rw [hab] at h1
            cases hbc : f b c with
            | gt => rw [hbc] at h2; exact Ordering.noConfusion h2
            | lt => rw [hf.eq_congr a b c hab, hbc]
            | eq =>
              rw [hbc] at h2
              rw [hf.eq_congr a b c hab, hbc]
              exact ih bs1 cs1 h1 h2
  eq_congr as bs cs := by
    induction as generalizing bs cs with
    | nil =>
      intro h
      cases bs with
      | nil => rfl
      | cons b bs1 => exact Ordering.noConfusion h
    | cons a as1 ih =>
      intro h
      cases bs with
      | nil => exact Ordering.noConfusion h
      | cons b bs1 =>
        simp only [listCmp] at h ⊢
        cases hab : f a b with
        | lt => rw [hab] at h; exact Ordering.noConfusion h
        | gt => rw [hab] at h; exact Ordering.noConfusion h
        | eq =>
          rw [hab] at h
          cases cs with
          | nil => rfl
          | cons c cs1 =>
            simp only [listCmp]
            rw [hf.eq_congr a b c hab]
            cases hbc : f b c with
            | lt => rfl
            | gt => rfl
            | eq => exact ih bs1 cs1 h
  gt_iff as bs := by
    induction as generalizing bs with
    | nil =>
      cases bs with
      | nil => simp [listCmp]
      | cons b bs1 => simp [listCmp]
    | cons a as1 ih =>
      cases bs with
      | nil => simp [listCmp]
      | cons b bs1 =>
        simp only [listCmp]
        cases hab : f a b with
        | lt =>
          have hba : f b a = Ordering.gt := (hf.gt_iff b a).mpr hab
          rw [hba]
          simp
        | eq =>
          have hba : f b a = Ordering.eq := hf.eq_symm hab
          rw [hba]
          exact ih bs1
        | gt =>
          have hba : f b a = Ordering.lt := (hf.gt_iff a b).mp hab
          rw [hba]
          simp

theorem lawful_strCmp : LawfulCmp strCmp :=
  (lawful_listCmp lawful_charCmp).comap String.data

theorem lawful_identCmp : LawfulCmp identCmp where
  lt_trans a b c h1 h2 := by
    simp only [identCmp] at h1 h2 ⊢
    cases ka : identKey a <;> cases kb : identKey b <;> cases kc : identKey c <;>
      rw [ka, kb] at h1 <;> rw [kb, kc] at h2 <;> first
      | exact Ordering.noConfusion h1
      | exact Ordering.noConfusion h2
      | exact lawful_strCmp.lt_trans a b c h1 h2
      | rfl
      | exact lawful_natCmp.lt_trans _ _ _ h1 h2
  eq_congr a b c h := by
    simp only [identCmp] at h ⊢
    cases ka : identKey a <;> cases kb : identKey b <;>
      rw [ka, kb] at h <;> first
      | exact Ordering.noConfusion h
      | skip
    case none.none =>
      cases kc : identKey c
      case none => exact lawful_strCmp.eq_congr a b c h
      case some z => rfl
    case some.some x y =>
      have hxy : x = y := (natCmp_eq_iff x y).mp h
      cases kc : identKey c
      case none => rfl
      case some z => rw [hxy]
  gt_iff a b := by
    simp only [identCmp]
    cases ka : identKey a <;> cases kb : identKey b <;> simp
    case none.none => exact lawful_strCmp.gt_iff a b
    case some.some x y => exact lawful_natCmp.gt_iff x y

theorem lawful_preCmp : LawfulCmp preCmp where
  lt_trans a b c h1 h2 := by
    cases a with
    | nil =>
      cases b with
      | nil => exact Ordering.noConfusion h1
      | cons b1 bs => exact Ordering.noConfusion h1
    | cons a1 as1 =>
      cases b with
      | nil =>
        cases c with
        | nil => rfl
        | cons c1 cs => exact Ordering.noConfusion h2
      | cons b1 bs =>
        cases c with
        | nil => rfl
        | cons c1 cs =>
          exact (lawful_listCmp lawful_identCmp).lt_trans _ _ _ h1 h2
  eq_congr a b c h := by
    cases a with
    | nil =>
      cases b with
      | nil => rfl
      | cons b1 bs => exact Ordering.noConfusion h
    | cons a1 as1 =>
      cases b with
      | nil => exact Ordering.noConfusion h
      | cons b1 bs =>
        cases c with
        | nil => rfl
        | cons c1 cs =>
          exact (lawful_listCmp lawful_identCmp).eq_congr _ _ _ h
  gt_iff a b := by
    cases a with
    | nil =>
      cases b with
      | nil => simp [preCmp]
      | cons b1 bs => simp [preCmp]
    | cons a1 as1 =>
      cases b with
      | nil => simp [preCmp]
      | cons b1 bs =>
        exact (lawful_listCmp lawful_identCmp).gt_iff _ _

theorem lawful_lexCmp {f g : α → α → Ordering} (hf : LawfulCmp f) (hg : LawfulCmp g) :
    LawfulCmp (lexCmp f g) where
  lt_trans a b c h1 h2 := by
    simp only [lexCmp] at h1 h2 ⊢
    cases hab : f a b with
    | gt => rw [hab] at h1; exact Ordering.noConfusion h1
    | lt =>
      cases hbc : f b c with
      | gt => rw [hbc] at h2; exact Ordering.noConfusion h2
      | lt => rw [hf.lt_trans a b c hab hbc]
      | eq => rw [← hf.eq_congr_right hbc a, hab]
    | eq =>
      rw [hab] at h1
      cases hbc : f b c with
      | gt => rw [hbc] at h2; exact Ordering.noConfusion h2
      | lt => rw [hf.eq_congr a b c hab, hbc]
      | eq =>
        rw [hbc] at h2
        rw [hf.eq_congr a b c hab, hbc]
        exact hg.lt_trans a b c h1 h2
  eq_congr a b c h := by
    simp only [lexCmp] at h ⊢
    cases hab : f a b with
    | lt => rw [hab] at h; exact Ordering.noConfusion h
    | gt => rw [hab] at h; exact Ordering.noConfusion h
    | eq =>
      rw [hab] at h
      rw [hf.eq_congr a b c hab]
      cases hbc : f b c with
      | lt => rfl
      | gt => rfl
      | eq => exact hg.eq_congr a b c h
  gt_iff a b := by
    simp only [lexCmp]
    cases hab : f a b with
    | lt =>
      have hba : f b a = Ordering.gt := (hf.gt_iff b a).mpr hab
      rw [hba]
      simp
    | eq =>
      have hba : f b a = Ordering.eq := hf.eq_symm hab
      rw [hba]
      exact hg.gt_iff a b
    | gt =>
      have hba : f b a = Ordering.lt := (hf.gt_iff a b).mp hab
      rw [hba]
      simp

theorem lawful_svCmp : LawfulCmp svCmp :=
  lawful_lexCmp (lawful_natCmp.comap SemVer.major)
    (lawful_lexCmp (lawful_natCmp.comap SemVer.minor)
      (lawful_lexCmp (lawful_natCmp.comap SemVer.patch)
        (lawful_preCmp.comap SemVer.prerelease)))

/-- The weak order induced by the semver comparator. -/
def svLe (a b : SemVer) : Prop := svCmp a b ≠ Ordering.gt

theorem svLe_refl (a : SemVer) : svLe a a := lawful_svCmp.not_gt_refl a

theorem svLe_trans {a b c : SemVer} (h1 : svLe a b) (h2 : svLe b c) : svLe a c :=
  lawful_svCmp.le_trans h1 h2

theorem svLe_of_gt {a b : SemVer} (h : svCmp a b = Ordering.gt) : svLe b a := by
  intro hgt
  rw [(lawful_svCmp.gt_iff a b).mp h] at hgt
  exact Ordering.noConfusion hgt

/-- Bridge from boolean equality on `Ordering` to propositional equality. -/
theorem ordering_beq_gt {o : Ordering} (h : (o == Ordering.gt) = true) :
    o = Ordering.gt := by
  cases o <;> first | rfl | exact absurd h (by decide)

/-- Bridge from boolean equality on `Ordering` to propositional equality. -/
theorem ordering_beq_lt {o : Ordering} (h : (o == Ordering.lt) = true) :
    o = Ordering.lt := by
  cases o <;> first | rfl | exact absurd h (by decide)

theorem svStep_eq_of_gt {v x : String × SemVer} (h : svCmp x.2 v.2 = Ordering.gt) :
    svStep v x = x := by
  unfold svStep
  split
  case isTrue => rfl
  case isFalse hb => rw [h] at hb; exact absurd hb (by decide)

theorem svStep_eq_of_not_gt {v x : String × SemVer} (h : svCmp x.2 v.2 ≠ Ordering.gt) :
    svStep v x = v := by
  unfold svStep
  split
  case isTrue hb => exact absurd (ordering_beq_gt hb) h
  case isFalse => rfl

/-- One `max` step keeps a value at least as large as the running maximum. -/
theorem svLe_svStep_left (v x : String × SemVer) : svLe v.2 (svStep v x).2 := by
  by_cases h : svCmp x.2 v.2 = Ordering.gt
  · rw [svStep_eq_of_gt h]
    exact svLe_of_gt h
  · rw [svStep_eq_of_not_gt h]
    exact svLe_refl v.2

/-- One `max` step keeps a value at least as large as the new element. -/
theorem svLe_svStep_right (v x : String × SemVer) : svLe x.2 (svStep v x).2 := by
  by_cases h : svCmp x.2 v.2 = Ordering.gt
  · rw [svStep_eq_of_gt h]
    exact svLe_refl x.2
  · rw [svStep_eq_of_not_gt h]
    exact h

/-- Python's `max` fold: the seed and every element folded over land at or
below the result. -/
theorem svFold_le (l : List (String × SemVer)) (v : String × SemVer) :
    svLe v.2 (l.foldl svStep v).2 ∧ ∀ q ∈ l, svLe q.2 (l.foldl svStep v).2 := by
  induction l generalizing v with
  | nil => exact ⟨svLe_refl v.2, by simp⟩
  | cons x xs ih =>
    have ihs := ih (svStep v x)
    simp only [List.foldl_cons]
    refine ⟨svLe_trans (svLe_svStep_left v x) ihs.1, ?_⟩
    intro q hq
    cases List.mem_cons.mp hq with
    | inr hmem => exact ihs.2 q hmem
    | inl heq =>
      subst heq
      exact svLe_trans (svLe_svStep_right v q) ihs.1

/-- The fold result is one of the folded elements (or the seed). -/
theorem svFold_mem (l : List (String × SemVer)) (v : String × SemVer) :
    l.foldl svStep v = v ∨ l.foldl svStep v ∈ l := by
  induction l generalizing v with
  | nil => exact Or.inl rfl
  | cons x xs ih =>
    simp only [List.foldl_cons]
    cases ih (svStep v x) with
    | inl h =>
      rw [h]
      unfold svStep
      by_cases hgt : (svCmp x.2 v.2 == Ordering.gt) = true
      · simp only [hgt, if_true]
        exact Or.inr (List.mem_cons_self x xs)
      · simp only [hgt, if_false]
        exact Or.inl rfl
    | inr h => exact Or.inr (List.mem_cons_of_mem x h)

theorem latestSemverPair_mem {l : List (String × SemVer)} {p : String × SemVer}
    (h : latestSemverPair l = some p) : p ∈ l := by
  cases l with
  | nil => exact Option.noConfusion h
  | cons v vs =>
    simp only [latestSemverPair, Option.some_inj] at h
    cases svFold_mem vs v with
    | inl hv => rw [← h, hv]; exact List.mem_cons_self v vs
    | inr hm => rw [← h]; exact List.mem_cons_of_mem v hm

theorem latestSemverPair_max {l : List (String × SemVer)} {p : String × SemVer}
    (h : latestSemverPair l = some p) : ∀ q ∈ l, svLe q.2 p.2 := by
  cases l with
  | nil => exact Option.noConfusion h
  | cons v vs =>
    simp only [latestSemverPair, Option.some_inj] at h
    intro q hq
    cases List.mem_cons.mp hq with
    | inl heq =>
      subst heq
      rw [← h]
      exact (svFold_le vs q).1
    | inr hmem =>
      rw [← h]
      exact (svFold_le vs v).2 q hmem

theorem mdcGetAppend_breaking_changes (m : MarkdownContent) (h t : String) :
    (mdcGetAppend m h t).breaking_changes = m.breaking_changes := by
  unfold mdcGetAppend
  split <;> rfl

theorem mainBucketStep_breaking_changes {st : List (String × String)}
    {m m1 : MarkdownContent} {tco : TypeCaptureOutput} {t : String}
    (h : mainBucketStep st m tco t = some m1) :
    m1.breaking_changes = m.breaking_changes := by
  unfold mainBucketStep at h
  split at h
  · split at h
    · injection h with h2
      rw [← h2]
      exact mdcGetAppend_breaking_changes m _ t
    · exact Option.noConfusion h
  · injection h with h2
    rw [← h2]

/-- The capitalization step as the specification's sentence describes it
(modelled from the spec, for comparison with the source's `enhance_title`):
uppercase the first character, leave every other character unchanged. -/
def specCapitalizeFirst (s : String) : String :=
  match s.data with
  | [] => ""
  | c :: cs => String.mk (c.toUpper :: cs)

/-- C2 counterexample: on the title "aB" with the flag set, the code returns
"Ab" — the second character is lowercased — while the claim's
first-character-only capitalization would return "AB". -/
theorem c2_counterexample :
    enhance_title "aB" true = "Ab" ∧ specCapitalizeFirst "aB" = "AB" ∧
      enhance_title "aB" true ≠ specCapitalizeFirst "aB" := by
  refine ⟨rfl, rfl, ?_⟩
  decide

/-- C2 (amended): with the flag false the title is returned unchanged; with
the flag true the step is Python's `str.capitalize` — the first character is
uppercased and every following character is lowercased (a full-string case
transform). -/
theorem c2_amended_capitalize (t : String) :
    enhance_title t false = t ∧
      (enhance_title t true).data =
        (match t.data with
         | [] => []
         | c :: cs => c.toUpper :: cs.map Char.toLower) := by
  refine ⟨rfl, ?_⟩
  cases t with
  | mk data =>
    cases data with
    | nil => rfl
    | cons c cs => rfl

/-- C9: with no pre-capture patterns configured the pre-capture stage
returns the subject unchanged, so composing it with the type-capture stage
equals the type-capture stage on the unmodified subject. -/
theorem c9_pre_capture_noop (subject pre_trim type_trim ltrim rtrim : String)
    (tcs : List String) (sup : List (String × String)) (allow cap : Bool) :
    process_pre_capture subject [] pre_trim = some subject ∧
      (match process_pre_capture subject [] pre_trim with
       | some t => process_type_capture t tcs type_trim allow ltrim rtrim sup cap
       | none => none) =
        process_type_capture subject tcs type_trim allow ltrim rtrim sup cap :=
  ⟨rfl, rfl⟩

/-- C10: two default-constructed `MarkdownContent` instances bind the same
module-level default objects, so an append through one is observable through
the other; the default objects start empty, and a construction with
explicitly passed fresh arguments does not alias them. -/
theorem c10_default_aliasing :
    (markdownContentInitDefault.values = markdownContentInitDefault.values
      ∧ markdownContentInitDefault.others = markdownContentInitDefault.others
      ∧ markdownContentInitDefault.breaking_changes
          = markdownContentInitDefault.breaking_changes)
    ∧ heapReadList pyHeapInit markdownContentInitDefault.others = []
    ∧ heapReadList (heapAppendList pyHeapInit markdownContentInitDefault.others "x")
        markdownContentInitDefault.others = ["x"]
    ∧ (markdownContentInitFresh pyHeapInit).1.others ≠ markdownContentInitDefault.others := by
  refine ⟨⟨rfl, rfl, rfl⟩, rfl, rfl, ?_⟩
  decide

/-- Configuration of claim C3's failing input: the inline breaking-change
group is explicitly disabled while the breaking-change-line trim pattern
keeps its non-empty default. -/
def confC3 : Conf :=
  { type_captures := ["^(\\w+)(!)?:"]
    type_captures_allow_breaking_change_group := false }

/-- C3 (code bug): `main` passes the trim-pattern string
`breaking_change_line_captures_after_trim` instead of the configured
boolean, so with the boolean false the per-commit processing still flags the
commit (the title lands in the breaking-changes bucket), although
`process_type_capture` itself honours a false flag. -/
theorem c3_code_bug_eval :
    confC3.type_captures_allow_breaking_change_group = false
    ∧ mainProcessCommit confC3 (MarkdownContent.mk [] [] []) "feat!: drop x"
        = some (MarkdownContent.mk [] ["Drop x"] ["Drop x"])
    ∧ (process_type_capture "feat!: drop x" confC3.type_captures
          confC3.type_captures_after_trim confC3.type_captures_allow_breaking_change_group
          confC3.title_left_trim confC3.title_right_trim confC3.supported_types
          confC3.capitalize_title_first_char).map TypeCaptureOutput.is_breaking_change
        = some false := by
  refine ⟨rfl, ?_, ?_⟩ <;> rfl

/-- Configuration of claim C1's example. -/
def confC1 : Conf :=
  { type_captures := ["^(\\w+):"]
    supported_types := [("feat", "Features")]
    headings := [("feat", "Features")] }

/-- Claim C1's configuration with the headings key equal to the
supported-types display value, which is the key the aggregation buckets
actually use. -/
def confC1Amended : Conf :=
  { confC1 with headings := [("Features", "Features")] }

/-- C1 counterexample: with `headings` mapping "feat" to "Features" the
rendered document has no Features section at all — the bucket is keyed by
the supported-types value "Features", which the renderer never looks up —
so "Add login" is dropped; only the Others section appears. -/
theorem c1_counterexample :
    mainRun confC1 ["feat: add login", "chore: bump deps"] "vX.Y.Z"
      = some "# vX.Y.Z\n\n## Others\n\n- Bump deps\n\n"
    ∧ containsSub "Features".data ("# vX.Y.Z\n\n## Others\n\n- Bump deps\n\n").data = false
    ∧ containsSub "Add login".data ("# vX.Y.Z\n\n## Others\n\n- Bump deps\n\n").data = false := by
  refine ⟨?_, ?_, ?_⟩ <;> rfl

/-- C1 (amended): with `headings` mapping "Features" to "Features", the
commit "feat: add login" yields the bullet "Add login" under the level-2
"Features" section and "chore: bump deps" yields "Bump deps" under
"Others". -/
theorem c1_amended_end_to_end :
    mainRun confC1Amended ["feat: add login", "chore: bump deps"] "vX.Y.Z"
      = some "# vX.Y.Z\n\n## Features\n\n- Add login\n\n## Others\n\n- Bump deps\n\n" := by
  rfl

/-- C5: whenever the explicit breaking-change-line detector returns a
non-empty processed text for a commit, the entry appended to the
breaking-changes bucket by the per-commit processing is exactly that text —
the inline-capture-derived title never displaces it, even when the inline
flag also fired. -/
theorem c5_explicit_precedence (c : Conf) (mdc mdc' : MarkdownContent) (msg t : String)
    (hexp : process_breaking_change (strSplitOnChar '\n' msg) c.breaking_change_line_captures
        c.breaking_change_line_captures_after_trim c.capitalize_title_first_char
        = some (some t))
    (ht : t ≠ "")
    (hrun : mainProcessCommit c mdc msg = some mdc') :
    mdc'.breaking_changes = mdc.breaking_changes ++ [t] := by
  simp only [mainProcessCommit] at hrun
  split at hrun
  · exact Option.noConfusion hrun
  · split at hrun
    · exact Option.noConfusion hrun
    · split at hrun
      · exact Option.noConfusion hrun
      · rename_i tco htc mdc1 hbucket
        rw [hexp] at hrun
        injection hrun with hrun2
        rw [← hrun2]
        have hbne : (t != "") = true := bne_iff_ne.mpr ht
        simp only [mainBreakingTitle, hbne, if_true, mainAppendBreaking]
        rw [mainBucketStep_breaking_changes hbucket]

/-- Configuration for C5's witness: inline two-group type capture plus an
explicit breaking-change-line pattern, so both mechanisms fire. -/
def confC5 : Conf :=
  { type_captures := ["^(\\w+)(!)?:"]
    breaking_change_line_captures := ["BREAKING CHANGE:\\s*"] }

theorem c5_witness :
    process_breaking_change
        (strSplitOnChar '\n' "feat!: drop api\nBREAKING CHANGE: old api removed")
        confC5.breaking_change_line_captures confC5.breaking_change_line_captures_after_trim
        confC5.capitalize_title_first_char = some (some "Old api removed")
    ∧ mainProcessCommit confC5 (MarkdownContent.mk [] [] [])
        "feat!: drop api\nBREAKING CHANGE: old api removed"
        = some (MarkdownContent.mk [] ["Drop api"] ["Old api removed"])
    ∧ (MarkdownContent.mk [] ["Drop api"] ["Old api removed"]).breaking_changes
        = (MarkdownContent.mk [] [] []).breaking_changes ++ ["Old api removed"] := by
  have h1 : process_breaking_change
      (strSplitOnChar '\n' "feat!: drop api\nBREAKING CHANGE: old api removed")
      confC5.breaking_change_line_captures confC5.breaking_change_line_captures_after_trim
      confC5.capitalize_title_first_char = some (some "Old api removed") := by rfl
  have h2 : mainProcessCommit confC5 (MarkdownContent.mk [] [] [])
      "feat!: drop api\nBREAKING CHANGE: old api removed"
      = some (MarkdownContent.mk [] ["Drop api"] ["Old api removed"]) := by rfl
  exact ⟨h1, h2,
    c5_explicit_precedence confC5 (MarkdownContent.mk [] [] [])
      (MarkdownContent.mk [] ["Drop api"] ["Old api removed"])
      "feat!: drop api\nBREAKING CHANGE: old api removed" "Old api removed"
      h1 (by decide) h2⟩

/-- C4 counterexample: for the prefix pattern `(\w+):` (one capture group)
on "feat: add login", the match's remainder is " add login" (trimming to
"add login"), yet the pre-capture stage returns "feat" — element 1 of the
regex split is the captured group, not the remainder — and the detector
likewise returns the capitalized group "Feat" instead of "Add x". -/
theorem c4_counterexample :
    process_pre_capture "feat: add login" ["(\\w+):"] "\\s+" = some "feat"
    ∧ pyMatchRem (reOf "(\\w+):") "feat: add login"
        = some ((" add login").data, [(1, "feat")])
    ∧ pySubStart (reOf "\\s+") (String.mk (" add login").data) = "add login"
    ∧ ("feat" : String) ≠ "add login"
    ∧ process_breaking_change ["feat: add x"] ["(\\w+):"] "\\s+" true = some (some "Feat")
    ∧ ("Feat" : String) ≠ "Add x" := by
  refine ⟨?_, ?_, ?_, by decide, ?_, by decide⟩ <;> rfl

theorem pySplitAnchored_no_groups {p : RE} {s : String} {rem : List Char} {a : Asn}
    (hng : numGroups p = 0) (h : pyMatchRem p s = some (rem, a)) :
    pySplitAnchored p s = [some "", some (String.mk rem)] := by
  unfold pySplitAnchored
  rw [h]
  unfold pyGroups
  rw [hng]
  rfl

theorem bcLineLoop_skip {bc trim l : String} {cap : Bool} {rest : List String}
    (hl : pyMatchRem (reOf bc) l = none) :
    bcLineLoop bc trim cap (l :: rest) = bcLineLoop bc trim cap rest := by
  simp only [bcLineLoop, hl]

theorem bcLineLoop_hit {bc trim l : String} {cap : Bool} {rest : List String}
    {rem : List Char} {a : Asn}
    (hng : numGroups (reOf bc) = 0) (h : pyMatchRem (reOf bc) l = some (rem, a)) :
    bcLineLoop bc trim cap (l :: rest)
      = some (some (enhance_title (pySubStart (reOf trim) (String.mk rem)) cap)) := by
  simp only [bcLineLoop, h, pySplitAnchored_no_groups hng h]
  rfl

theorem bcLineLoop_none {bc trim : String} {cap : Bool} {msgs : List String}
    (hall : ∀ l ∈ msgs, pyMatchRem (reOf bc) l = none) :
    bcLineLoop bc trim cap msgs = some none := by
  induction msgs with
  | nil => rfl
  | cons l rest ih =>
    rw [bcLineLoop_skip (hall l (List.mem_cons_self l rest))]
    exact ih (fun l2 hl2 => hall l2 (List.mem_cons_of_mem l hl2))

/-- C4 (amended): for a prefix pattern with no capture groups, the
pre-capture stage and the breaking-change detector return the remainder
after the matched prefix, trimmed (and, for the detector, optionally
capitalized); the detector answers from the first matching line of the
first matching pattern and ignores everything after it, and it returns its
no-match value exactly when no pattern matches any line.  (With capture
groups, split element 1 is the first captured group instead — see the
counterexample.) -/
theorem c4_amended :
    (∀ (pat trim s : String) (rem : List Char) (a : Asn),
      numGroups (reOf pat) = 0 →
      pyMatchRem (reOf pat) s = some (rem, a) →
      process_pre_capture s [pat] trim = some (pySubStart (reOf trim) (String.mk rem)))
    ∧ (∀ (pat trim : String) (rest pre post : List String) (cap : Bool)
        (l : String) (rem : List Char) (a : Asn),
      numGroups (reOf pat) = 0 →
      (∀ l2 ∈ pre, pyMatchRem (reOf pat) l2 = none) →
      pyMatchRem (reOf pat) l = some (rem, a) →
      process_breaking_change (pre ++ l :: post) (pat :: rest) trim cap
        = some (some (enhance_title (pySubStart (reOf trim) (String.mk rem)) cap)))
    ∧ (∀ (msgs pats : List String) (trim : String) (cap : Bool),
      (∀ p ∈ pats, ∀ l ∈ msgs, pyMatchRem (reOf p) l = none) →
      process_breaking_change msgs pats trim cap = some none) := by
  refine ⟨?_, ?_, ?_⟩
  · intro pat trim s rem a hng h
    simp only [process_pre_capture, h, pySplitAnchored_no_groups hng h]
    rfl
  · intro pat trim rest pre post cap l rem a hng hpre h
    have hloop : bcLineLoop pat trim cap (pre ++ l :: post)
        = some (some (enhance_title (pySubStart (reOf trim) (String.mk rem)) cap)) := by
      induction pre with
      | nil => exact bcLineLoop_hit hng h
      | cons l2 pre2 ih =>
        rw [List.cons_append, bcLineLoop_skip (hpre l2 (List.mem_cons_self l2 pre2))]
        exact ih (fun l3 hl3 => hpre l3 (List.mem_cons_of_mem l2 hl3))
    simp only [process_breaking_change, hloop]
  · intro msgs pats trim cap hall
    induction pats with
    | nil => rfl
    | cons p rest ih =>
      have hbc : bcLineLoop p trim cap msgs = some none :=
        bcLineLoop_none (hall p (List.mem_cons_self p rest))
      simp only [process_breaking_change, hbc]
      exact ih (fun p2 hp2 => hall p2 (List.mem_cons_of_mem p hp2))

theorem c4_amended_witness :
    numGroups (reOf "x:") = 0
    ∧ pyMatchRem (reOf "x:") "x: y" = some ((" y").data, [])
    ∧ process_pre_capture "x: y" ["x:"] "\\s+"
        = some (pySubStart (reOf "\\s+") (String.mk (" y").data))
    ∧ numGroups (reOf "BREAKING CHANGE:\\s*") = 0
    ∧ pyMatchRem (reOf "BREAKING CHANGE:\\s*") "BREAKING CHANGE: gone"
        = some (("gone").data, [])
    ∧ process_breaking_change ["intro", "BREAKING CHANGE: gone", "after"]
        ["BREAKING CHANGE:\\s*"] "\\s+" true
        = some (some (enhance_title
            (pySubStart (reOf "\\s+") (String.mk ("gone").data)) true))
    ∧ process_breaking_change ["alpha"] ["zz:"] "\\s+" false = some none := by
  have h1 : numGroups (reOf "x:") = 0 := by rfl
  have h2 : pyMatchRem (reOf "x:") "x: y" = some ((" y").data, []) := by rfl
  have h3 : numGroups (reOf "BREAKING CHANGE:\\s*") = 0 := by rfl
  have h4 : pyMatchRem (reOf "BREAKING CHANGE:\\s*") "BREAKING CHANGE: gone"
      = some (("gone").data, []) := by rfl
  refine ⟨h1, h2, c4_amended.1 "x:" "\\s+" "x: y" (" y").data [] h1 h2, h3, h4, ?_, ?_⟩
  · have := c4_amended.2.1 "BREAKING CHANGE:\\s*" "\\s+" [] ["intro"] ["after"] true
      "BREAKING CHANGE: gone" ("gone").data [] h3 (by decide) h4
    simpa using this
  · exact c4_amended.2.2 ["alpha"] ["zz:"] "\\s+" false (by decide)

/-- C6: the concrete example — tags v1.0.0, v1.2.0, v2.0.0 and release
title v1.5.0 resolve "~..HEAD" to "v1.2.0..HEAD" — and in general, for a
valid-semver release title, the resolver substitutes for the leading "~" a
tag that is a valid-semver tag with version strictly below the title's and
maximal (no other strictly-below tag compares greater). -/
theorem c6_semver_resolution :
    (process_commits_str "~..HEAD" "v1.5.0" ["v1.0.0", "v1.2.0", "v2.0.0"]).1
      = "v1.2.0..HEAD"
    ∧ ∀ (commits_str release_title : String) (repo_tags : List String)
        (tv : SemVer) (tag : String),
      strStartsWith commits_str "~.." = true →
      semverParse (cleanTag release_title) = some tv →
      closest_previous_semver tv (tagVersions repo_tags) = some tag →
      (process_commits_str commits_str release_title repo_tags).1
          = tag ++ strDrop commits_str 1
        ∧ ∃ v, (tag, v) ∈ tagVersions repo_tags ∧ svCmp v tv = Ordering.lt
            ∧ ∀ q ∈ tagVersions repo_tags,
                svCmp q.2 tv = Ordering.lt → svCmp q.2 v ≠ Ordering.gt := by
  refine ⟨by rfl, ?_⟩
  intro commits_str release_title repo_tags tv tag hstart htitle hclosest
  have hmain : (process_commits_str commits_str release_title repo_tags).1
      = tag ++ strDrop commits_str 1 := by
    unfold process_commits_str
    rw [hstart]
    simp only [htitle, hclosest, if_true]
  refine ⟨hmain, ?_⟩
  unfold closest_previous_semver latest_semver at hclosest
  cases hpair : latestSemverPair
      ((tagVersions repo_tags).filter (fun x => svCmp x.2 tv == Ordering.lt)) with
  | none => rw [hpair] at hclosest; exact Option.noConfusion hclosest
  | some p =>
    rw [hpair] at hclosest
    injection hclosest with htag
    have hmem := latestSemverPair_mem hpair
    have hfil := List.mem_filter.mp hmem
    refine ⟨p.2, ?_, ?_, ?_⟩
    · rw [← htag]
      exact hfil.1
    · exact ordering_beq_lt hfil.2
    · intro q hq hqlt
      exact latestSemverPair_max hpair q
        (List.mem_filter.mpr ⟨hq, by rw [hqlt]; rfl⟩)

theorem c6_witness :
    strStartsWith "~..main" "~.." = true
    ∧ semverParse (cleanTag "1.1.0") = some (SemVer.mk 1 1 0 [] [])
    ∧ closest_previous_semver (SemVer.mk 1 1 0 [] []) (tagVersions ["v1.0.0", "junk"])
        = some "v1.0.0"
    ∧ ((process_commits_str "~..main" "1.1.0" ["v1.0.0", "junk"]).1
          = "v1.0.0" ++ strDrop "~..main" 1
        ∧ ∃ v, ("v1.0.0", v) ∈ tagVersions ["v1.0.0", "junk"]
            ∧ svCmp v (SemVer.mk 1 1 0 [] []) = Ordering.lt
            ∧ ∀ q ∈ tagVersions ["v1.0.0", "junk"],
                svCmp q.2 (SemVer.mk 1 1 0 [] []) = Ordering.lt
                  → svCmp q.2 v ≠ Ordering.gt) := by
  have h1 : strStartsWith "~..main" "~.." = true := by rfl
  have h2 : semverParse (cleanTag "1.1.0") = some (SemVer.mk 1 1 0 [] []) := by rfl
  have h3 : closest_previous_semver (SemVer.mk 1 1 0 [] [])
      (tagVersions ["v1.0.0", "junk"]) = some "v1.0.0" := by rfl
  exact ⟨h1, h2, h3,
    c6_semver_resolution.2 "~..main" "1.1.0" ["v1.0.0", "junk"]
      (SemVer.mk 1 1 0 [] []) "v1.0.0" h1 h2 h3⟩

/-- C7 counterexample: with no valid semver tags, "~..HEAD" resolves to
"HEAD" — `re.sub(r"^~\.\.", "", ...)` removes the entire "~.." prefix — not
to "..HEAD" as the claim states. -/
theorem c7_counterexample :
    process_commits_str "~..HEAD" "v1.5.0" ["foo"]
      = ("HEAD", ["No valid semver tags found, starting from beginning to commit HEAD"])
    ∧ ("HEAD" : String) ≠ "..HEAD" := by
  refine ⟨by rfl, by decide⟩

/-- C7 (amended): given no valid semver tags and release title v1.5.0, the
range "~..HEAD" resolves to "HEAD" (the leading "~.." stripped entirely), a
warning is emitted on the diagnostic stream, and the run is not aborted —
the resolver still returns a range expression. -/
theorem c7_amended (repo_tags : List String) (h : tagVersions repo_tags = []) :
    process_commits_str "~..HEAD" "v1.5.0" repo_tags
      = ("HEAD", ["No valid semver tags found, starting from beginning to commit HEAD"])
    ∧ (process_commits_str "~..HEAD" "v1.5.0" repo_tags).2 ≠ [] := by
  have hmain : process_commits_str "~..HEAD" "v1.5.0" repo_tags
      = ("HEAD", ["No valid semver tags found, starting from beginning to commit HEAD"]) := by
    simp only [process_commits_str, h]
    rfl
  refine ⟨hmain, ?_⟩
  rw [hmain]
  decide

theorem c7_witness :
    tagVersions ["foo"] = []
    ∧ (process_commits_str "~..HEAD" "v1.5.0" ["foo"]
        = ("HEAD", ["No valid semver tags found, starting from beginning to commit HEAD"])
      ∧ (process_commits_str "~..HEAD" "v1.5.0" ["foo"]).2 ≠ []) :=
  ⟨rfl, c7_amended ["foo"] rfl⟩

/-- Concatenation of a list of strings. -/
def strJoin : List String → String
  | [] => ""
  | x :: xs => x ++ strJoin xs

theorem process_markdown_fold (mdc : MarkdownContent) (hs : List (String × String))
    (acc : String) :
    hs.foldl (fun acc hk =>
      match alistLookupL mdc.values hk.1 with
      | some pts => acc ++ appendSection hk.2 pts ++ "\n"
      | none => acc) acc
    = acc ++ strJoin ((hs.filter (fun p => (alistLookupL mdc.values p.1).isSome)).map
        (fun p => appendSection p.2 ((alistLookupL mdc.values p.1).getD []) ++ "\n")) := by
  induction hs generalizing acc with
  | nil => exact (String.append_empty acc).symm
  | cons hk rest ih =>
    simp only [List.foldl_cons]
    cases hl : alistLookupL mdc.values hk.1 with
    | none =>
      rw [ih]
      simp only [List.filter_cons, hl, Option.isSome_none, Bool.false_eq_true, if_false]
    | some pts =>
      rw [ih]
      simp only [List.filter_cons, hl, Option.isSome_some, if_true, List.map_cons]
      simp only [strJoin, Option.getD_some, String.append_assoc]

/-- C8 (amended): the rendered document is exactly the title block, then one
section per heading-key of the configuration's `headings` — in that order —
restricted to keys *present* in the values dictionary, then the others and
breaking-changes sections when those buckets are non-empty.  The right-hand
side reads the values dictionary only through key lookup, so the output is
independent of the dictionary's insertion (commit-traversal) order; a key
that is present with an empty bucket still produces a (bullet-less) section,
which is what the counterexample exhibits. -/
theorem c8_amended_render_equation (mdc : MarkdownContent) (title : String)
    (headings : List (String × String)) (others_heading breaking_changes_heading : String) :
    process_markdown mdc title headings others_heading breaking_changes_heading
      = "# " ++ title ++ "\n\n"
        ++ strJoin ((headings.filter (fun p => (alistLookupL mdc.values p.1).isSome)).map
            (fun p => appendSection p.2 ((alistLookupL mdc.values p.1).getD []) ++ "\n"))
        ++ (if mdc.others.length > 0
            then appendSection others_heading mdc.others ++ "\n" else "")
        ++ (if mdc.breaking_changes.length > 0
            then appendSection breaking_changes_heading mdc.breaking_changes else "") := by
  simp only [process_markdown]
  rw [process_markdown_fold]
  by_cases ho : mdc.others.length > 0
  · by_cases hb : mdc.breaking_changes.length > 0
    · simp only [ho, hb, if_true, String.append_assoc]
    · simp only [ho, hb, if_true, if_false, String.append_empty, String.append_assoc]
  · by_cases hb : mdc.breaking_changes.length > 0
    · simp only [ho, hb, if_true, if_false, String.append_assoc, String.empty_append]
    · simp only [ho, hb, if_false, String.append_empty, String.append_assoc,
        String.empty_append]

/-- C8 counterexample: an aggregator state whose values dictionary contains
the heading-key with an *empty* bucket renders a bullet-less "Features"
section — a bucket with zero collected entries does produce a section when
its key is present, contradicting the claim's universal statement. -/
theorem c8_counterexample :
    process_markdown (MarkdownContent.mk [("feat", [])] [] []) "T"
        [("feat", "Features")] "Others" "BC"
      = "# T\n\n## Features\n\n\n\n"
    ∧ ("# T\n\n## Features\n\n\n\n" : String) ≠ "# T\n\n" := by
  refine ⟨by rfl, by decide⟩
